import Mathlib

/-!
Verification development for the go-lcp-radix repository.

The repository implements a radix (prefix) tree with longest-common-prefix
matching, in two variants:

* a concurrent tree (`concurrent_tree.go`): nodes carry `Text`, `Val` (a
  possibly nil pointer), `End`, `Deleted` and a `Children` map, and the tree
  offers `Insert`, `LongestCommonPrefixMatch`, `MultiLongestCommonPrefixMatch`
  and `RemoveNode`;
* a sequential tree (`tree.go`): nodes carry `Text`, `Val`, `End` and
  `Children`, with `Insert`, `LongestCommonPrefixMatch` and a structural
  `RemoveNode`.

This file gives a shallow embedding of both variants and proves or refutes
the specification claims about them.  Keys (the comparable unit type `K` of
the Go code) are modelled as natural numbers; Go maps from the first unit to
a child are modelled as association lists with unique keys maintained by
upsert, so map update and delete keep their Go semantics.  Go pointers to
nodes are modelled by paths from the root, and the in-place mutation style
of the Go code is modelled by rebuilding the spine of the tree along the
descent.  Locks are erased: every embedded operation is the sequential body
of the corresponding Go function.
-/

set_option autoImplicit false

namespace LRadix

/-- Models `longestPrefix` of tree.go: the length of the longest common
prefix of two unit sequences (the loop returns the first mismatch position,
or the minimum length when one sequence is exhausted). -/
def longestPrefixLen : List Nat → List Nat → Nat
  | a :: as, b :: bs => if a = b then longestPrefixLen as bs + 1 else 0
  | _, _ => 0

/-- Looks up the child bound to a first unit in a children map, modelling
`n.Children[head]` (Go maps have unique keys; the embedding keeps the
association list dedup-by-construction via `upsertChild`). -/
def lookupChild {A : Type} (k : Nat) : List (Nat × A) → Option A
  | [] => none
  | (k', c) :: tl => if k' = k then some c else lookupChild k tl

/-- Models the Go map write `m[k] = c`: replaces the binding of `k` if
present, otherwise appends it. -/
def upsertChild {A : Type} (k : Nat) (c : A) : List (Nat × A) → List (Nat × A)
  | [] => [(k, c)]
  | (k', c') :: tl => if k' = k then (k, c) :: tl else (k', c') :: upsertChild k c tl

/-- Models the Go map delete `delete(m, k)`. -/
def eraseChild {A : Type} (k : Nat) : List (Nat × A) → List (Nat × A)
  | [] => []
  | (k', c') :: tl => if k' = k then tl else (k', c') :: eraseChild k tl

/-- Models the `Match` struct of concurrent_tree.go (`MatchLength`, `Value`,
`Exact`).  `Value` is a possibly nil pointer in Go, hence an `Option`. -/
structure Match (T : Type) where
  MatchLength : Nat
  Value : Option T
  Exact : Bool

/-- Models `NewMatch`. -/
def NewMatch {T : Type} (l : Nat) (v : Option T) (exact : Bool) : Match T :=
  ⟨l, v, exact⟩

/-- Models the `ConcurrentNode` struct of concurrent_tree.go: text fragment,
value pointer, end flag, deleted flag and the children map (parent pointers
are implicit in the tree structure of the embedding). -/
inductive ConcurrentNode (T : Type) : Type where
  | mk (Text : List Nat) (Val : Option T) (End : Bool) (Deleted : Bool)
      (Children : List (Nat × ConcurrentNode T))

/-- Field `Text` of a concurrent node. -/
def ConcurrentNode.Text {T : Type} : ConcurrentNode T → List Nat
  | .mk t _ _ _ _ => t

/-- Field `Val` of a concurrent node. -/
def ConcurrentNode.Val {T : Type} : ConcurrentNode T → Option T
  | .mk _ v _ _ _ => v

/-- Field `End` of a concurrent node. -/
def ConcurrentNode.End {T : Type} : ConcurrentNode T → Bool
  | .mk _ _ e _ _ => e

/-- Field `Deleted` of a concurrent node. -/
def ConcurrentNode.Deleted {T : Type} : ConcurrentNode T → Bool
  | .mk _ _ _ d _ => d

/-- Field `Children` of a concurrent node. -/
def ConcurrentNode.Children {T : Type} : ConcurrentNode T → List (Nat × ConcurrentNode T)
  | .mk _ _ _ _ cs => cs

/-- Models `NewConcurrentNode`: fresh node with the given text, value and end
flag, not deleted, no children. -/
def NewConcurrentNode {T : Type} (text : List Nat) (val : Option T) (e : Bool) :
    ConcurrentNode T :=
  .mk text val e false []

/-- Models `ConcurrentNode.AddChild` applied to a children map: a node with
empty text is silently dropped, otherwise it is stored under its first
unit. -/
def ConcurrentNode.AddChild {T : Type} (cs : List (Nat × ConcurrentNode T))
    (node : ConcurrentNode T) : List (Nat × ConcurrentNode T) :=
  match node.Text with
  | [] => cs
  | k :: _ => upsertChild k node cs

/-- Models the `ConcurrentTree` struct (root holder). -/
structure ConcurrentTree (T : Type) where
  Root : ConcurrentNode T

/-- Models `NewConcurrentTree`: a root with empty text, nil value, end flag
false and no children. -/
def NewConcurrentTree (T : Type) : ConcurrentTree T :=
  ⟨.mk [] none false false []⟩

/-- Intermediate result of one iteration of an insert loop walking the
children map: the sought first unit is absent, or the walk descended into the
matched child (children map rebuilt with the updated child in place), or the
matched child was split (children map rebuilt with the child's text shortened
in place, plus the new intermediate node and the returned handle). -/
inductive InsStep (N : Type) : Type where
  | noChild
  | descended (cs : List (Nat × N)) (ret : Option N)
  | didSplit (cs : List (Nat × N)) (common : N) (ret : N)

mutual

/-- Models the body of `ConcurrentTree.Insert` from the current node `cur`
with the remaining key `rem` (locks erased).  `isRoot` records whether
`cur.Parent == nil`.  Returns the updated subtree and the handle returned by
the Go code (the state of the returned node at return time). -/
def insertLoop {T : Type} (v : T) (isRoot : Bool) :
    ConcurrentNode T → List Nat → ConcurrentNode T × Option (ConcurrentNode T)
  | .mk t _ _ d cs, [] =>
      (.mk t (some v) true d cs, some (.mk t (some v) true d cs))
  | .mk t val e d cs, ch :: rest =>
      match insertFind v ch (ch :: rest) cs with
      | .noChild =>
          let newNode := NewConcurrentNode (ch :: rest) (some v) false
          (.mk t val e d (ConcurrentNode.AddChild cs newNode), some newNode)
      | .descended cs' ret => (.mk t val e d cs', ret)
      | .didSplit cs' common ret =>
          (.mk t (if isRoot then val else some v) e d
            (ConcurrentNode.AddChild cs' common), some ret)

/-- Walks the children map of the current node for the first unit `ch` of the
remaining key `rem`, performing the body of the Go insert loop at the matched
child: no child, split (with the two sub-cases of concurrent_tree.go), or
full edge match followed by descent. -/
def insertFind {T : Type} (v : T) (ch : Nat) (rem : List Nat) :
    List (Nat × ConcurrentNode T) → InsStep (ConcurrentNode T)
  | [] => .noChild
  | (k, c) :: tl =>
      if k = ch then
        let kl := longestPrefixLen c.Text rem
        if kl < c.Text.length then
          let next' : ConcurrentNode T :=
            .mk (c.Text.drop kl) c.Val c.End c.Deleted c.Children
          if kl < rem.length then
            let newNode : ConcurrentNode T :=
              NewConcurrentNode (rem.drop kl) (some v) true
            let common : ConcurrentNode T :=
              .mk (c.Text.take kl) none false false
                (ConcurrentNode.AddChild (ConcurrentNode.AddChild [] next') newNode)
            .didSplit ((k, next') :: tl) common newNode
          else
            let common : ConcurrentNode T :=
              .mk (c.Text.take kl) (some v) false false
                (ConcurrentNode.AddChild [] next')
            .didSplit ((k, next') :: tl) common common
        else
          let r := insertLoop v false c (rem.drop kl)
          .descended ((k, r.1) :: tl) r.2
      else
        match insertFind v ch rem tl with
        | .noChild => .noChild
        | .descended tl' ret => .descended ((k, c) :: tl') ret
        | .didSplit tl' common ret => .didSplit ((k, c) :: tl') common ret

end

/-- Models `ConcurrentTree.Insert`: an empty key returns a nil handle and
leaves the tree untouched; otherwise the insert loop runs from the root. -/
def ConcurrentTree.Insert {T : Type} (t : ConcurrentTree T) (str : List Nat) (v : T) :
    ConcurrentTree T × Option (ConcurrentNode T) :=
  match str with
  | [] => (t, none)
  | _ :: _ =>
      let r := insertLoop v true t.Root str
      (⟨r.1⟩, r.2)

mutual

/-- Models `dfsNodeForValue`: return the node's own value if non-nil, else
the first non-nil value found by depth-first search over the children. -/
def dfsNodeForValue {T : Type} : ConcurrentNode T → Option T
  | .mk _ v _ _ cs =>
      match v with
      | some x => some x
      | none => dfsChildren cs

/-- Depth-first search over a children map for the first non-nil value. -/
def dfsChildren {T : Type} : List (Nat × ConcurrentNode T) → Option T
  | [] => none
  | (_, c) :: tl =>
      match dfsNodeForValue c with
      | some x => some x
      | none => dfsChildren tl

end

mutual

/-- Models the loop of `ConcurrentTree.LongestCommonPrefixMatch` (locks
erased): `acc` is the accumulated common prefix, `val` the last non-nil value
seen along the path, `isInter` whether the last visited node had a nil value
(`isIntermediate` in the Go code). -/
def lcpmLoop {T : Type} :
    ConcurrentNode T → List Nat → List Nat → Option T → Bool →
      List Nat × Option T × Bool
  | cur, [], acc, val, isInter =>
      if isInter then
        (acc,
          (match dfsNodeForValue cur with
           | some x => some x
           | none => val), false)
      else (acc, val, true)
  | .mk _ _ _ _ cs, ch :: rest, acc, val, _ =>
      lcpmFind ch (ch :: rest) acc val cs

/-- Walks the children map for the next unit during a longest-common-prefix
match: missing child stops with the values seen so far, partial edge match
stops at the child, full edge match descends. -/
def lcpmFind {T : Type} (ch : Nat) (rem : List Nat) (acc : List Nat) (val : Option T) :
    List (Nat × ConcurrentNode T) → List Nat × Option T × Bool
  | [] => (acc, val, false)
  | (k, c) :: tl =>
      if k = ch then
        let kl := longestPrefixLen c.Text rem
        let acc' := acc ++ c.Text.take kl
        let val' := if c.Val.isSome then c.Val else val
        if kl < c.Text.length then (acc', val', false)
        else lcpmLoop c (rem.drop kl) acc' val' c.Val.isNone
      else lcpmFind ch rem acc val tl

end

/-- Models `ConcurrentTree.LongestCommonPrefixMatch`. -/
def ConcurrentTree.LongestCommonPrefixMatch {T : Type} (t : ConcurrentTree T)
    (str : List Nat) : List Nat × Option T × Bool :=
  lcpmLoop t.Root str [] none false

/-- Applies the body of the concurrent `RemoveNode` at the node addressed by
the path: the node's value and end flag are cleared and the `Deleted` flag is
set; the node stays in its parent's children map. -/
def removeMarkAt {T : Type} : ConcurrentNode T → List Nat → ConcurrentNode T
  | .mk t _ _ _ cs, [] => .mk t none false true cs
  | .mk t v e d cs, k :: rest =>
      match lookupChild k cs with
      | none => .mk t v e d cs
      | some c => .mk t v e d (upsertChild k (removeMarkAt c rest) cs)

/-- Models `ConcurrentTree.RemoveNode` given a path to the node (the Go node
handle): on the root (nil parent) it is a no-op, otherwise the node is marked
deleted in place and is not unlinked. -/
def ConcurrentTree.RemoveNode {T : Type} (t : ConcurrentTree T) (p : List Nat) :
    ConcurrentTree T :=
  match p with
  | [] => t
  | _ :: _ => ⟨removeMarkAt t.Root p⟩

/-- Navigates a path of first units from a node, for stating reachability of
the node a Go handle points to. -/
def nodeAtPath {T : Type} : ConcurrentNode T → List Nat → Option (ConcurrentNode T)
  | n, [] => some n
  | n, k :: rest =>
      match lookupChild k n.Children with
      | none => none
      | some c => nodeAtPath c rest

/-- Records produced for the direct children of a node during
`MultiLongestCommonPrefixMatch`: one record per child with a non-nil value,
at the current depth, with `Exact = false`. -/
def childRecs {T : Type} (cs : List (Nat × ConcurrentNode T)) (idx : Nat) :
    List (Match T) :=
  cs.filterMap fun p =>
    match p.2.Val with
    | some x => some (NewMatch idx (some x) false)
    | none => none

/-- Record produced for a node's own value after the descent of
`MultiLongestCommonPrefixMatch` stops: tagged with the final index and the
node's end flag. -/
def ownEndRec {T : Type} (v : Option T) (e : Bool) (idx : Nat) : List (Match T) :=
  match v with
  | some x => [NewMatch idx (some x) e]
  | none => []

mutual

/-- Models the loop of `MultiLongestCommonPrefixMatch` (locks erased): `acc`
is the accumulated candidate list, `idx` the current index into the query. -/
def multiLoop {T : Type} :
    ConcurrentNode T → List Nat → Nat → List (Match T) → List (Match T)
  | .mk _ v e _ cs, [], idx, acc =>
      acc ++ ownEndRec v e idx ++ childRecs cs idx
  | .mk _ v e _ cs, ch :: rest, idx, acc =>
      let acc1 := acc ++ (match v with
        | some x => [NewMatch idx (some x) false]
        | none => [])
      multiFind ch (ch :: rest) idx v e cs acc1 cs

/-- Walks the children map for the next unit during
`MultiLongestCommonPrefixMatch`.  `v`, `e` and `full` are the value, end flag
and full children map of the current node (needed for the records emitted at
a stop). -/
def multiFind {T : Type} (ch : Nat) (rem : List Nat) (idx : Nat) (v : Option T)
    (e : Bool) (full : List (Nat × ConcurrentNode T)) (acc : List (Match T)) :
    List (Nat × ConcurrentNode T) → List (Match T)
  | [] => acc ++ ownEndRec v e idx ++ childRecs full idx
  | (k, c) :: tl =>
      if k = ch then
        let acc2 := acc ++ childRecs full idx
        let kl := longestPrefixLen c.Text rem
        if kl < c.Text.length then
          acc2 ++ ownEndRec c.Val c.End idx ++ childRecs c.Children idx
        else multiLoop c (rem.drop kl) (idx + kl) acc2
      else multiFind ch rem idx v e full acc tl

end

/-- Models `MultiLongestCommonPrefixMatch`. -/
def ConcurrentTree.MultiLongestCommonPrefixMatch {T : Type} (t : ConcurrentTree T)
    (str : List Nat) : List (Match T) :=
  multiLoop t.Root str 0 []

mutual

/-- The node at which the descent shared by the lookup operations stops,
together with the query index reached: the query is exhausted on the node, or
the next unit has no child, or the child's edge only partially matches. -/
def stopNode {T : Type} : ConcurrentNode T → List Nat → Nat → ConcurrentNode T × Nat
  | .mk t v e d cs, [], idx => (.mk t v e d cs, idx)
  | .mk t v e d cs, ch :: rest, idx =>
      stopFind (.mk t v e d cs) ch (ch :: rest) idx cs

/-- Children walk for `stopNode`. -/
def stopFind {T : Type} (cur : ConcurrentNode T) (ch : Nat) (rem : List Nat)
    (idx : Nat) : List (Nat × ConcurrentNode T) → ConcurrentNode T × Nat
  | [] => (cur, idx)
  | (k, c) :: tl =>
      if k = ch then
        let kl := longestPrefixLen c.Text rem
        if kl < c.Text.length then (c, idx)
        else stopNode c (rem.drop kl) (idx + kl)
      else stopFind cur ch rem idx tl

end

mutual

/-- The node on which the descent of `LongestCommonPrefixMatch` exhausts the
query by full edge matches, if it does (`none` when the descent stops early
because a child is missing or an edge matches only partially). -/
def finalNode {T : Type} : ConcurrentNode T → List Nat → Option (ConcurrentNode T)
  | .mk t v e d cs, [] => some (.mk t v e d cs)
  | .mk _ _ _ _ cs, ch :: rest => finalFind ch (ch :: rest) cs

/-- Children walk for `finalNode`. -/
def finalFind {T : Type} (ch : Nat) (rem : List Nat) :
    List (Nat × ConcurrentNode T) → Option (ConcurrentNode T)
  | [] => none
  | (k, c) :: tl =>
      if k = ch then
        let kl := longestPrefixLen c.Text rem
        if kl < c.Text.length then none
        else finalNode c (rem.drop kl)
      else finalFind ch rem tl

end

mutual

/-- The last non-nil value seen along the descent of
`LongestCommonPrefixMatch` (the `val` accumulator of the loop), at the point
where the descent stops, starting from the accumulator `val`. -/
def pathVal {T : Type} : ConcurrentNode T → List Nat → Option T → Option T
  | _, [], val => val
  | .mk _ _ _ _ cs, ch :: rest, val => pathValFind ch (ch :: rest) val cs

/-- Children walk for `pathVal`. -/
def pathValFind {T : Type} (ch : Nat) (rem : List Nat) (val : Option T) :
    List (Nat × ConcurrentNode T) → Option T
  | [] => val
  | (k, c) :: tl =>
      if k = ch then
        let val' := if c.Val.isSome then c.Val else val
        if longestPrefixLen c.Text rem < c.Text.length then val'
        else pathVal c (rem.drop (longestPrefixLen c.Text rem)) val'
      else pathValFind ch rem val tl

end

mutual

/-- Specification-shaped restatement of the record list produced by
`MultiLongestCommonPrefixMatch`, built as an explicit concatenation of the
per-node blocks in root-to-leaf order over the nodes visited by the descent:
a visited node with query left contributes its own value (if present) tagged
with the depth reached so far and `Exact = false`, then — once the next
child is found there — the values of its direct children at the same depth
with `Exact = false`, followed by the blocks of the deeper nodes; the node
where the descent stops contributes the terminal block: its own value tagged
with the final depth and with `Exact` equal to that node's END FLAG
(regardless of why the descent stopped), followed by its children's values
at the final depth with `Exact = false`.  To be compared with the
accumulator-threading translation `multiLoop` of the source. -/
def multiSpec {T : Type} : ConcurrentNode T → List Nat → Nat → List (Match T)
  | .mk _ v e _ cs, [], idx => ownEndRec v e idx ++ childRecs cs idx
  | .mk _ v e _ cs, ch :: rest, idx =>
      (match v with
       | some x => [NewMatch idx (some x) false]
       | none => []) ++ multiSpecFind ch (ch :: rest) idx v e cs cs

/-- Children walk for `multiSpec`: no matching child ends the descent at the
current node (whose own-value record reappears in its terminal block, tagged
with its end flag); a partially matching child ends it at that child; a fully
matching child contributes the current node's child records and then the
deeper blocks. -/
def multiSpecFind {T : Type} (ch : Nat) (rem : List Nat) (idx : Nat) (v : Option T)
    (e : Bool) (full : List (Nat × ConcurrentNode T)) :
    List (Nat × ConcurrentNode T) → List (Match T)
  | [] => ownEndRec v e idx ++ childRecs full idx
  | (k, c) :: tl =>
      if k = ch then
        childRecs full idx ++
          (if longestPrefixLen c.Text rem < c.Text.length then
            ownEndRec c.Val c.End idx ++ childRecs c.Children idx
          else multiSpec c (rem.drop (longestPrefixLen c.Text rem))
            (idx + longestPrefixLen c.Text rem))
      else multiSpecFind ch rem idx v e full tl

end

/-!
Sequential tree (the second revision embedded in tree.go, the one referenced
by the claims: `Node[T]` with `Text`, `Val *T`, `End`, `Children`, `Parent`).
-/

/-- Models the sequential `Node` struct of tree.go. -/
inductive Node (T : Type) : Type where
  | mk (Text : List Nat) (Val : Option T) (End : Bool)
      (Children : List (Nat × Node T))

/-- Field `Text` of a sequential node. -/
def Node.Text {T : Type} : Node T → List Nat
  | .mk t _ _ _ => t

/-- Field `Val` of a sequential node. -/
def Node.Val {T : Type} : Node T → Option T
  | .mk _ v _ _ => v

/-- Field `End` of a sequential node. -/
def Node.End {T : Type} : Node T → Bool
  | .mk _ _ e _ => e

/-- Field `Children` of a sequential node. -/
def Node.Children {T : Type} : Node T → List (Nat × Node T)
  | .mk _ _ _ cs => cs

/-- Models `NewNode`: a leaf node, `End = true`. -/
def NewNode {T : Type} (text : List Nat) (val : Option T) : Node T :=
  .mk text val true []

/-- Models `NewIntermediateNode`: `End = false`. -/
def NewIntermediateNode {T : Type} (text : List Nat) (val : Option T) : Node T :=
  .mk text val false []

/-- Models the sequential `Node.AddChild`: a node with empty text is stored
under the unit `0` (Go `byte(0)`), otherwise under its first unit. -/
def Node.AddChild {T : Type} (cs : List (Nat × Node T)) (node : Node T) :
    List (Nat × Node T) :=
  match node.Text with
  | [] => upsertChild 0 node cs
  | k :: _ => upsertChild k node cs

/-- Models the sequential `Tree` struct. -/
structure Tree (T : Type) where
  Root : Node T

/-- Models `NewTree`. -/
def NewTree (T : Type) : Tree T :=
  ⟨.mk [] none false []⟩

mutual

/-- Models the body of the sequential `Tree.Insert` from the current node
with the remaining key. -/
def seqInsertLoop {T : Type} (v : T) :
    Node T → List Nat → Node T × Option (Node T)
  | .mk t _ _ cs, [] =>
      (.mk t (some v) true cs, some (.mk t (some v) true cs))
  | .mk t val e cs, ch :: rest =>
      match seqInsertFind v ch (ch :: rest) cs with
      | .noChild =>
          let newNode := NewNode (ch :: rest) (some v)
          (.mk t val e (Node.AddChild cs newNode), some newNode)
      | .descended cs' ret => (.mk t val e cs', ret)
      | .didSplit cs' common ret =>
          (.mk t val e (Node.AddChild cs' common), some ret)

/-- Children walk of the sequential insert loop.  The split of tree.go always
creates a fresh leaf `newNode` for the leftover suffix (possibly with empty
text, then keyed under unit `0`) and returns it. -/
def seqInsertFind {T : Type} (v : T) (ch : Nat) (rem : List Nat) :
    List (Nat × Node T) → InsStep (Node T)
  | [] => .noChild
  | (k, c) :: tl =>
      if k = ch then
        let kl := longestPrefixLen c.Text rem
        if kl < c.Text.length then
          let next' : Node T := .mk (c.Text.drop kl) c.Val c.End c.Children
          let newNode := NewNode (rem.drop kl) (some v)
          let common : Node T :=
            .mk (c.Text.take kl) (some v) false
              (Node.AddChild (Node.AddChild [] next') newNode)
          .didSplit ((k, next') :: tl) common newNode
        else
          let r := seqInsertLoop v c (rem.drop kl)
          .descended ((k, r.1) :: tl) r.2
      else
        match seqInsertFind v ch rem tl with
        | .noChild => .noChild
        | .descended tl' ret => .descended ((k, c) :: tl') ret
        | .didSplit tl' common ret => .didSplit ((k, c) :: tl') common ret

end

/-- Models the sequential `Tree.Insert`: empty key is a no-op returning a nil
handle. -/
def Tree.Insert {T : Type} (t : Tree T) (str : List Nat) (v : T) :
    Tree T × Option (Node T) :=
  match str with
  | [] => (t, none)
  | _ :: _ =>
      let r := seqInsertLoop v t.Root str
      (⟨r.1⟩, r.2)

mutual

/-- Models the loop of the sequential `Tree.LongestCommonPrefixMatch`, which
returns the accumulated common prefix and the value of the last node the
descent moved to (`mark.Val`). -/
def seqLcpmLoop {T : Type} :
    Node T → List Nat → List Nat → List Nat × Option T
  | cur, [], acc => (acc, cur.Val)
  | .mk _ v _ cs, ch :: rest, acc => seqLcpmFind ch (ch :: rest) v acc cs

/-- Children walk of the sequential longest-common-prefix match; `curVal` is
the value of the current node, returned when no child matches the next
unit. -/
def seqLcpmFind {T : Type} (ch : Nat) (rem : List Nat) (curVal : Option T)
    (acc : List Nat) : List (Nat × Node T) → List Nat × Option T
  | [] => (acc, curVal)
  | (k, c) :: tl =>
      if k = ch then
        let kl := longestPrefixLen c.Text rem
        let acc' := acc ++ c.Text.take kl
        if kl < c.Text.length then (acc', c.Val)
        else seqLcpmLoop c (rem.drop kl) acc'
      else seqLcpmFind ch rem curVal acc tl

end

/-- Models the sequential `Tree.LongestCommonPrefixMatch`. -/
def Tree.LongestCommonPrefixMatch {T : Type} (t : Tree T) (str : List Nat) :
    List Nat × Option T :=
  seqLcpmLoop t.Root str []

/-- Refresh of a surviving parent's placeholder value after an unlink: the Go
code copies the value of one child out of the children map (first binding in
the embedding, matching one possible Go map iteration order); with no
children left the loop body never runs and the value is unchanged. -/
def reseedVal {T : Type} (v : Option T) : List (Nat × Node T) → Option T
  | [] => v
  | (_, c) :: _ => c.Val

/-- Models the sequential `Tree.RemoveNode` along a path (the Go node
handle).  The returned flag records that the addressed subtree's root must be
unlinked from its parent (the cascading branch of the Go recursion); `none`
models the Go panic when `node.Text[0]` is evaluated on an empty text.
`isRoot` is whether the current node is the tree root (nil parent). -/
def seqRemoveAt {T : Type} (isRoot : Bool) : Node T → List Nat → Option (Node T × Bool)
  | n, [] =>
      match n.Children with
      | _ :: _ => some (n, false)
      | [] => if isRoot then some (n, false) else some (n, true)
  | .mk t v e cs, k :: rest =>
      match lookupChild k cs with
      | none => some (.mk t v e cs, false)
      | some c =>
          match seqRemoveAt false c rest with
          | none => none
          | some (c', false) => some (.mk t v e (upsertChild k c' cs), false)
          | some (c', true) =>
              match c'.Text with
              | [] => none
              | t0 :: _ =>
                  let cs' := eraseChild t0 cs
                  match cs', e with
                  | [], false =>
                      if isRoot then some (.mk t v e [], false)
                      else some (.mk t v e [], true)
                  | _, _ =>
                      if isRoot then some (.mk t v e cs', false)
                      else some (.mk t (reseedVal v cs') e cs', false)

/-- Models the sequential `Tree.RemoveNode` at tree level: the result is
`none` when the Go code would panic (removing a node whose text is empty). -/
def Tree.RemoveNode {T : Type} (t : Tree T) (p : List Nat) : Option (Tree T) :=
  match seqRemoveAt true t.Root p with
  | none => none
  | some (r, _) => some ⟨r⟩

/-- Navigates a path of first units from a sequential node. -/
def seqNodeAtPath {T : Type} : Node T → List Nat → Option (Node T)
  | n, [] => some n
  | n, k :: rest =>
      match lookupChild k n.Children with
      | none => none
      | some c => seqNodeAtPath c rest

/-- The structural invariant of the specification restricted to the
descendants of a node: every node strictly below it that has `End = false`
has at least one child (no reachable non-root node is simultaneously
non-terminal and childless). -/
inductive Good {T : Type} : Node T → Prop where
  | mk (t : List Nat) (v : Option T) (e : Bool) (cs : List (Nat × Node T)) :
      (∀ p ∈ cs, p.2.End = false → p.2.Children ≠ []) →
      (∀ p ∈ cs, Good p.2) →
      Good (.mk t v e cs)

/-- An operation on the sequential tree: an insertion of a key with a value,
or a removal through a handle denoted by its path. -/
inductive TreeOp (T : Type) : Type where
  | ins (key : List Nat) (v : T)
  | rem (p : List Nat)

/-- Applies one operation to a sequential tree (`none` when the Go code would
panic). -/
def applyOp {T : Type} (t : Tree T) : TreeOp T → Option (Tree T)
  | .ins key v => some (Tree.Insert t key v).1
  | .rem p => Tree.RemoveNode t p

/-- Runs a sequence of operations on a sequential tree. -/
def applyOps {T : Type} : Tree T → List (TreeOp T) → Option (Tree T)
  | t, [] => some t
  | t, op :: tl =>
      match applyOp t op with
      | none => none
      | some t' => applyOps t' tl

/-!
Helper lemmas.
-/

theorem longestPrefixLen_le_left (a b : List Nat) : longestPrefixLen a b ≤ a.length := by
  induction a generalizing b with
  | nil => simp [longestPrefixLen]
  | cons x xs ih =>
      cases b with
      | nil => simp [longestPrefixLen]
      | cons y ys =>
          simp only [longestPrefixLen]
          split
          · simpa using ih ys
          · simp

theorem longestPrefixLen_le_right (a b : List Nat) : longestPrefixLen a b ≤ b.length := by
  induction a generalizing b with
  | nil => simp [longestPrefixLen]
  | cons x xs ih =>
      cases b with
      | nil => simp [longestPrefixLen]
      | cons y ys =>
          simp only [longestPrefixLen]
          split
          · simpa using ih ys
          · simp

theorem longestPrefixLen_take (a b : List Nat) :
    a.take (longestPrefixLen a b) = b.take (longestPrefixLen a b) := by
  induction a generalizing b with
  | nil => simp [longestPrefixLen]
  | cons x xs ih =>
      cases b with
      | nil => simp [longestPrefixLen]
      | cons y ys =>
          simp only [longestPrefixLen]
          split
          · next h => simp [List.take_succ_cons, h, ih ys]
          · simp

theorem mem_upsertChild {A : Type} (k : Nat) (x : A) :
    ∀ (l : List (Nat × A)) (p : Nat × A), p ∈ upsertChild k x l → p = (k, x) ∨ p ∈ l := by
  intro l
  induction l with
  | nil => intro p hp; simp [upsertChild] at hp; simp [hp]
  | cons hd tl ih =>
      intro p hp
      simp only [upsertChild] at hp
      split at hp
      · rcases List.mem_cons.mp hp with h | h
        · exact Or.inl h
        · exact Or.inr (List.mem_cons_of_mem _ h)
      · rcases List.mem_cons.mp hp with h | h
        · exact Or.inr (h ▸ List.mem_cons_self _ _)
        · rcases ih p h with h' | h'
          · exact Or.inl h'
          · exact Or.inr (List.mem_cons_of_mem _ h')

theorem upsertChild_ne_nil {A : Type} (k : Nat) (x : A) (l : List (Nat × A)) :
    upsertChild k x l ≠ [] := by
  cases l with
  | nil => simp [upsertChild]
  | cons hd tl =>
      simp only [upsertChild]
      split <;> simp

theorem mem_eraseChild {A : Type} (k : Nat) :
    ∀ (l : List (Nat × A)) (p : Nat × A), p ∈ eraseChild k l → p ∈ l := by
  intro l
  induction l with
  | nil => intro p hp; simp [eraseChild] at hp
  | cons hd tl ih =>
      intro p hp
      simp only [eraseChild] at hp
      split at hp
      · exact List.mem_cons_of_mem _ hp
      · rcases List.mem_cons.mp hp with h | h
        · exact h ▸ List.mem_cons_self _ _
        · exact List.mem_cons_of_mem _ (ih p h)

theorem lookupChild_upsertChild_self {A : Type} (k : Nat) (x : A) (l : List (Nat × A)) :
    lookupChild k (upsertChild k x l) = some x := by
  induction l with
  | nil => simp [upsertChild, lookupChild]
  | cons hd tl ih =>
      simp only [upsertChild]
      split
      · simp [lookupChild]
      · next h => simp [lookupChild, h, ih]

theorem sizeOf_lookupChild_lt {T : Type} (k : Nat) :
    ∀ (cs : List (Nat × ConcurrentNode T)) (c : ConcurrentNode T),
      lookupChild k cs = some c → sizeOf c < sizeOf cs := by
  intro cs
  induction cs with
  | nil => intro c h; simp [lookupChild] at h
  | cons hd tl ih =>
      intro c h
      simp only [lookupChild] at h
      split at h
      · cases h
        cases hd with
        | mk a b => simp; omega
      · have h1 := ih c h
        cases hd with
        | mk a b => simp; omega

theorem sizeOf_mem_lt {T : Type} {p : Nat × ConcurrentNode T}
    {cs : List (Nat × ConcurrentNode T)} (h : p ∈ cs) : sizeOf p.2 < sizeOf cs := by
  induction cs with
  | nil => simp at h
  | cons hd tl ih =>
      rcases List.mem_cons.mp h with h' | h'
      · subst h'
        cases p with
        | mk a b => simp; omega
      · have := ih h'
        cases hd with
        | mk a b => simp; omega

theorem sizeOf_children_lt {T : Type} (t : List Nat) (v : Option T) (e d : Bool)
    (cs : List (Nat × ConcurrentNode T)) :
    sizeOf cs < sizeOf (ConcurrentNode.mk t v e d cs) := by
  simp [ConcurrentNode.mk.sizeOf_spec]

theorem seq_sizeOf_mem_lt {T : Type} {p : Nat × Node T}
    {cs : List (Nat × Node T)} (h : p ∈ cs) : sizeOf p.2 < sizeOf cs := by
  induction cs with
  | nil => simp at h
  | cons hd tl ih =>
      rcases List.mem_cons.mp h with h' | h'
      · subst h'
        cases p with
        | mk a b => simp; omega
      · have := ih h'
        cases hd with
        | mk a b => simp; omega

theorem seq_sizeOf_children_lt {T : Type} (t : List Nat) (v : Option T) (e : Bool)
    (cs : List (Nat × Node T)) :
    sizeOf cs < sizeOf (Node.mk t v e cs) := by
  simp [Node.mk.sizeOf_spec]

theorem sizeOf_node_pos {T : Type} (n : ConcurrentNode T) : 0 < sizeOf n := by
  cases n with
  | mk t v e d cs => simp [ConcurrentNode.mk.sizeOf_spec]

theorem seq_sizeOf_node_pos {T : Type} (n : Node T) : 0 < sizeOf n := by
  cases n with
  | mk t v e cs => simp [Node.mk.sizeOf_spec]

theorem lcpmLoop_prefix {T : Type} :
    ∀ (N : Nat) (n : ConcurrentNode T), sizeOf n ≤ N →
      ∀ (rem acc : List Nat) (val : Option T) (ii : Bool),
        ∃ p, (lcpmLoop n rem acc val ii).1 = acc ++ p ∧ p <+: rem := by
  intro N
  induction N with
  | zero =>
      intro n hn
      exact absurd hn (by have := sizeOf_node_pos n; omega)
  | succ N ih =>
      intro n hn rem acc val ii
      cases n with
      | mk t v e d cs =>
        cases rem with
        | nil =>
            refine ⟨[], ?_, List.nil_prefix⟩
            simp only [lcpmLoop]
            split <;> simp
        | cons ch rest =>
            simp only [lcpmLoop]
            have hcs : ∀ pair ∈ cs, sizeOf pair.2 ≤ N := by
              intro pair hp
              have h1 := sizeOf_mem_lt hp
              have h2 := sizeOf_children_lt t v e d cs
              omega
            clear hn
            induction cs with
            | nil => exact ⟨[], by simp [lcpmFind], List.nil_prefix⟩
            | cons hd tl ihl =>
                obtain ⟨k, c⟩ := hd
                by_cases hk : k = ch
                · simp only [lcpmFind, hk, if_pos rfl]
                  by_cases hlt :
                      longestPrefixLen c.Text (ch :: rest) < c.Text.length
                  · refine ⟨c.Text.take (longestPrefixLen c.Text (ch :: rest)), ?_, ?_⟩
                    · simp [hlt]
                    · rw [longestPrefixLen_take]
                      exact List.take_prefix _ _
                  · simp only [hlt, if_neg, ite_false]
                    have hc : sizeOf c ≤ N := hcs (k, c) (List.mem_cons_self _ _)
                    obtain ⟨p', hp1, hp2⟩ :=
                      ih c hc ((ch :: rest).drop (longestPrefixLen c.Text (ch :: rest)))
                        (acc ++ c.Text.take (longestPrefixLen c.Text (ch :: rest)))
                        (if c.Val.isSome = true then c.Val else val) c.Val.isNone
                    refine ⟨c.Text.take (longestPrefixLen c.Text (ch :: rest)) ++ p', ?_, ?_⟩
                    · simp only [if_true]
                      rw [hp1, List.append_assoc]
                    · obtain ⟨s, hs⟩ := hp2
                      refine ⟨s, ?_⟩
                      rw [longestPrefixLen_take, List.append_assoc, hs,
                        List.take_append_drop]
                · simp only [lcpmFind, hk, if_neg, ite_false]
                  exact ihl (fun pair hp => hcs pair (List.mem_cons_of_mem _ hp))

theorem seqLcpmLoop_prefix {T : Type} :
    ∀ (N : Nat) (n : Node T), sizeOf n ≤ N →
      ∀ (rem acc : List Nat),
        ∃ p, (seqLcpmLoop n rem acc).1 = acc ++ p ∧ p <+: rem := by
  intro N
  induction N with
  | zero =>
      intro n hn
      exact absurd hn (by have := seq_sizeOf_node_pos n; omega)
  | succ N ih =>
      intro n hn rem acc
      cases n with
      | mk t v e cs =>
        cases rem with
        | nil => exact ⟨[], by simp [seqLcpmLoop], List.nil_prefix⟩
        | cons ch rest =>
            simp only [seqLcpmLoop]
            have hcs : ∀ pair ∈ cs, sizeOf pair.2 ≤ N := by
              intro pair hp
              have h1 := seq_sizeOf_mem_lt hp
              have h2 := seq_sizeOf_children_lt t v e cs
              omega
            clear hn
            induction cs with
            | nil => exact ⟨[], by simp [seqLcpmFind], List.nil_prefix⟩
            | cons hd tl ihl =>
                obtain ⟨k, c⟩ := hd
                by_cases hk : k = ch
                · simp only [seqLcpmFind, hk, if_pos rfl]
                  by_cases hlt :
                      longestPrefixLen c.Text (ch :: rest) < c.Text.length
                  · refine ⟨c.Text.take (longestPrefixLen c.Text (ch :: rest)), ?_, ?_⟩
                    · simp [hlt]
                    · rw [longestPrefixLen_take]
                      exact List.take_prefix _ _
                  · simp only [hlt, if_neg, ite_false]
                    have hc : sizeOf c ≤ N := hcs (k, c) (List.mem_cons_self _ _)
                    obtain ⟨p', hp1, hp2⟩ :=
                      ih c hc ((ch :: rest).drop (longestPrefixLen c.Text (ch :: rest)))
                        (acc ++ c.Text.take (longestPrefixLen c.Text (ch :: rest)))
                    refine ⟨c.Text.take (longestPrefixLen c.Text (ch :: rest)) ++ p', ?_, ?_⟩
                    · simp only [if_true]
                      rw [hp1, List.append_assoc]
                    · obtain ⟨s, hs⟩ := hp2
                      refine ⟨s, ?_⟩
                      rw [longestPrefixLen_take, List.append_assoc, hs,
                        List.take_append_drop]
                · simp only [seqLcpmFind, hk, if_neg, ite_false]
                  exact ihl (fun pair hp => hcs pair (List.mem_cons_of_mem _ hp))

theorem finalNode_nil {T : Type} (n : ConcurrentNode T) : finalNode n [] = some n := by
  cases n with
  | mk t v e d cs => rfl

theorem lcpmLoop_exact {T : Type} :
    ∀ (N : Nat) (n : ConcurrentNode T), sizeOf n ≤ N →
      ∀ (rem acc : List Nat) (val : Option T) (ii : Bool),
        ((lcpmLoop n rem acc val ii).2.2 = true ↔
          ∃ m, finalNode n rem = some m ∧ (rem = [] → ii = false) ∧
            (rem ≠ [] → m.Val.isSome = true)) := by
  intro N
  induction N with
  | zero =>
      intro n hn
      exact absurd hn (by have := sizeOf_node_pos n; omega)
  | succ N ih =>
      intro n hn rem acc val ii
      cases n with
      | mk t v e d cs =>
        cases rem with
        | nil => cases ii <;> simp [lcpmLoop, finalNode]
        | cons ch rest =>
            simp only [lcpmLoop, finalNode]
            have hcs : ∀ pair ∈ cs, sizeOf pair.2 ≤ N := by
              intro pair hp
              have h1 := sizeOf_mem_lt hp
              have h2 := sizeOf_children_lt t v e d cs
              omega
            clear hn
            induction cs with
            | nil => simp [lcpmFind, finalFind]
            | cons hd tl ihl =>
                obtain ⟨k, c⟩ := hd
                by_cases hk : k = ch
                · simp only [lcpmFind, finalFind, hk, if_pos rfl, if_true]
                  by_cases hlt :
                      longestPrefixLen c.Text (ch :: rest) < c.Text.length
                  · simp [hlt]
                  · simp only [hlt, if_neg, ite_false]
                    have hc : sizeOf c ≤ N := hcs (k, c) (List.mem_cons_self _ _)
                    rw [ih c hc ((ch :: rest).drop (longestPrefixLen c.Text (ch :: rest)))
                      (acc ++ c.Text.take (longestPrefixLen c.Text (ch :: rest)))
                      (if c.Val.isSome = true then c.Val else val) c.Val.isNone]
                    by_cases hrem :
                        (ch :: rest).drop (longestPrefixLen c.Text (ch :: rest)) = []
                    · rw [hrem]
                      constructor
                      · rintro ⟨m, hm, h2, _⟩
                        rw [finalNode_nil] at hm
                        injection hm with hm'
                        subst hm'
                        refine ⟨c, by rw [finalNode_nil], fun h => absurd h (by simp), ?_⟩
                        intro _
                        have h2' := h2 rfl
                        cases hval : c.Val with
                        | none => rw [hval] at h2'; simp at h2'
                        | some x => simp [hval]
                      · rintro ⟨m, hm, _, h3⟩
                        rw [finalNode_nil] at hm
                        injection hm with hm'
                        subst hm'
                        refine ⟨c, by rw [finalNode_nil], ?_, fun _ => h3 (by simp)⟩
                        intro _
                        have h3' := h3 (by simp)
                        cases hval : c.Val with
                        | none => rw [hval] at h3'; simp at h3'
                        | some x => simp [hval]
                    · constructor
                      · rintro ⟨m, hm, _, h3⟩
                        exact ⟨m, hm, fun h => absurd h (by simp),
                          fun _ => h3 hrem⟩
                      · rintro ⟨m, hm, _, h3⟩
                        exact ⟨m, hm, fun h => absurd h hrem,
                          fun _ => h3 (by simp)⟩
                · simp only [lcpmFind, finalFind, hk, if_neg, ite_false]
                  exact ihl (fun pair hp => hcs pair (List.mem_cons_of_mem _ hp))

theorem lcpmLoop_dfs {T : Type} :
    ∀ (N : Nat) (n : ConcurrentNode T), sizeOf n ≤ N →
      ∀ (rem acc : List Nat) (val : Option T) (ii : Bool) (m : ConcurrentNode T) (w : T),
        finalNode n rem = some m → m.Val = none → (rem = [] → ii = true) →
        dfsNodeForValue m = some w →
        (lcpmLoop n rem acc val ii).2.1 = some w := by
  intro N
  induction N with
  | zero =>
      intro n hn
      exact absurd hn (by have := sizeOf_node_pos n; omega)
  | succ N ih =>
      intro n hn rem acc val ii m w hfin hval hii hdfs
      cases n with
      | mk t v e d cs =>
        cases rem with
        | nil =>
            rw [finalNode_nil] at hfin
            cases hfin
            simp [lcpmLoop, hii rfl, hdfs]
        | cons ch rest =>
            simp only [finalNode] at hfin
            simp only [lcpmLoop]
            have hcs : ∀ pair ∈ cs, sizeOf pair.2 ≤ N := by
              intro pair hp
              have h1 := sizeOf_mem_lt hp
              have h2 := sizeOf_children_lt t v e d cs
              omega
            clear hn
            induction cs with
            | nil => simp [finalFind] at hfin
            | cons hd tl ihl =>
                obtain ⟨k, c⟩ := hd
                by_cases hk : k = ch
                · simp only [finalFind, hk, if_pos rfl, if_true] at hfin
                  simp only [lcpmFind, hk, if_pos rfl, if_true]
                  by_cases hlt :
                      longestPrefixLen c.Text (ch :: rest) < c.Text.length
                  · rw [if_pos hlt] at hfin
                    cases hfin
                  · rw [if_neg hlt] at hfin
                    rw [if_neg hlt]
                    have hc : sizeOf c ≤ N := hcs (k, c) (List.mem_cons_self _ _)
                    refine ih c hc _ _ _ _ m w hfin hval ?_ hdfs
                    intro hrem
                    rw [hrem, finalNode_nil] at hfin
                    cases hfin
                    rw [hval]
                    rfl
                · simp only [finalFind, hk, if_neg, ite_false] at hfin
                  simp only [lcpmFind, hk, if_neg, ite_false]
                  exact ihl hfin (fun pair hp => hcs pair (List.mem_cons_of_mem _ hp))

theorem lcpmLoop_failVal {T : Type} :
    ∀ (N : Nat) (n : ConcurrentNode T), sizeOf n ≤ N →
      ∀ (rem acc : List Nat) (val : Option T) (ii : Bool),
        finalNode n rem = none →
        (lcpmLoop n rem acc val ii).2.1 = pathVal n rem val := by
  intro N
  induction N with
  | zero =>
      intro n hn
      exact absurd hn (by have := sizeOf_node_pos n; omega)
  | succ N ih =>
      intro n hn rem acc val ii hfin
      cases n with
      | mk t v e d cs =>
        cases rem with
        | nil =>
            rw [finalNode_nil] at hfin
            cases hfin
        | cons ch rest =>
            simp only [finalNode] at hfin
            simp only [lcpmLoop, pathVal]
            have hcs : ∀ pair ∈ cs, sizeOf pair.2 ≤ N := by
              intro pair hp
              have h1 := sizeOf_mem_lt hp
              have h2 := sizeOf_children_lt t v e d cs
              omega
            clear hn
            induction cs with
            | nil => simp [lcpmFind, pathValFind]
            | cons hd tl ihl =>
                obtain ⟨k, c⟩ := hd
                by_cases hk : k = ch
                · simp only [finalFind, hk, if_pos rfl, if_true] at hfin
                  simp only [lcpmFind, pathValFind, hk, if_pos rfl, if_true]
                  by_cases hlt :
                      longestPrefixLen c.Text (ch :: rest) < c.Text.length
                  · simp [hlt]
                  · rw [if_neg hlt] at hfin
                    simp only [hlt, if_neg, ite_false]
                    have hc : sizeOf c ≤ N := hcs (k, c) (List.mem_cons_self _ _)
                    exact ih c hc _ _ _ _ hfin
                · simp only [finalFind, hk, if_neg, ite_false] at hfin
                  simp only [lcpmFind, pathValFind, hk, if_neg, ite_false]
                  exact ihl hfin (fun pair hp => hcs pair (List.mem_cons_of_mem _ hp))

theorem multiLoop_stop {T : Type} :
    ∀ (N : Nat) (n : ConcurrentNode T), sizeOf n ≤ N →
      ∀ (rem : List Nat) (idx : Nat) (acc : List (Match T)),
        ∃ pre, multiLoop n rem idx acc =
          pre ++ (ownEndRec (stopNode n rem idx).1.Val (stopNode n rem idx).1.End
              (stopNode n rem idx).2
            ++ childRecs (stopNode n rem idx).1.Children (stopNode n rem idx).2) := by
  intro N
  induction N with
  | zero =>
      intro n hn
      exact absurd hn (by have := sizeOf_node_pos n; omega)
  | succ N ih =>
      intro n hn rem idx acc
      cases n with
      | mk t v e d cs =>
        cases rem with
        | nil =>
            refine ⟨acc, ?_⟩
            simp [multiLoop, stopNode, ConcurrentNode.Val, ConcurrentNode.End,
              ConcurrentNode.Children]
        | cons ch rest =>
            simp only [multiLoop, stopNode]
            have hcs : ∀ pair ∈ cs, sizeOf pair.2 ≤ N := by
              intro pair hp
              have h1 := sizeOf_mem_lt hp
              have h2 := sizeOf_children_lt t v e d cs
              omega
            clear hn
            have hwalk :
                ∀ (l : List (Nat × ConcurrentNode T)),
                  (∀ pair ∈ l, sizeOf pair.2 ≤ N) →
                  ∀ (acc' : List (Match T)),
                    ∃ pre,
                      multiFind ch (ch :: rest) idx v e cs acc' l =
                        pre ++ (ownEndRec
                            (stopFind (.mk t v e d cs) ch (ch :: rest) idx l).1.Val
                            (stopFind (.mk t v e d cs) ch (ch :: rest) idx l).1.End
                            (stopFind (.mk t v e d cs) ch (ch :: rest) idx l).2
                          ++ childRecs
                            (stopFind (.mk t v e d cs) ch (ch :: rest) idx l).1.Children
                            (stopFind (.mk t v e d cs) ch (ch :: rest) idx l).2) := by
              intro l
              induction l with
              | nil =>
                  intro _ acc'
                  refine ⟨acc', ?_⟩
                  simp [multiFind, stopFind, ConcurrentNode.Val, ConcurrentNode.End,
                    ConcurrentNode.Children]
              | cons hd tl ihl =>
                  intro hl acc'
                  obtain ⟨k, c⟩ := hd
                  by_cases hk : k = ch
                  · simp only [multiFind, stopFind, hk, if_pos rfl, if_true]
                    by_cases hlt :
                        longestPrefixLen c.Text (ch :: rest) < c.Text.length
                    · refine ⟨acc' ++ childRecs cs idx, ?_⟩
                      simp [hlt]
                    · simp only [hlt, if_neg, ite_false]
                      have hc : sizeOf c ≤ N := hl (k, c) (List.mem_cons_self _ _)
                      exact ih c hc _ _ _
                  · simp only [multiFind, stopFind, hk, if_neg, ite_false]
                    exact ihl (fun pair hp => hl pair (List.mem_cons_of_mem _ hp)) _
            exact hwalk cs hcs _

theorem multiLoop_spec {T : Type} :
    ∀ (N : Nat) (n : ConcurrentNode T), sizeOf n ≤ N →
      ∀ (rem : List Nat) (idx : Nat) (acc : List (Match T)),
        multiLoop n rem idx acc = acc ++ multiSpec n rem idx := by
  intro N
  induction N with
  | zero =>
      intro n hn
      exact absurd hn (by have := sizeOf_node_pos n; omega)
  | succ N ih =>
      intro n hn rem idx acc
      cases n with
      | mk t v e d cs =>
        cases rem with
        | nil => simp [multiLoop, multiSpec, List.append_assoc]
        | cons ch rest =>
            simp only [multiLoop, multiSpec]
            have hcs : ∀ pair ∈ cs, sizeOf pair.2 ≤ N := by
              intro pair hp
              have h1 := sizeOf_mem_lt hp
              have h2 := sizeOf_children_lt t v e d cs
              omega
            clear hn
            have hwalk :
                ∀ (l : List (Nat × ConcurrentNode T)),
                  (∀ pair ∈ l, sizeOf pair.2 ≤ N) →
                  ∀ (acc' : List (Match T)),
                    multiFind ch (ch :: rest) idx v e cs acc' l =
                      acc' ++ multiSpecFind ch (ch :: rest) idx v e cs l := by
              intro l
              induction l with
              | nil =>
                  intro _ acc'
                  simp [multiFind, multiSpecFind, List.append_assoc]
              | cons hd tl ihl =>
                  intro hl acc'
                  obtain ⟨k, c⟩ := hd
                  by_cases hk : k = ch
                  · simp only [multiFind, multiSpecFind, hk, if_pos rfl, if_true]
                    by_cases hlt :
                        longestPrefixLen c.Text (ch :: rest) < c.Text.length
                    · simp [hlt, List.append_assoc]
                    · simp only [hlt, if_neg, ite_false]
                      rw [ih c (hl (k, c) (List.mem_cons_self _ _)) _ _ _]
                      simp [List.append_assoc]
                  · simp only [multiFind, multiSpecFind, hk, if_neg, ite_false]
                    exact ihl (fun pair hp => hl pair (List.mem_cons_of_mem _ hp)) _
            rw [hwalk cs hcs _]
            simp [List.append_assoc]

theorem AddChild_cons_text {T : Type} (cs : List (Nat × ConcurrentNode T))
    (n : ConcurrentNode T) (k : Nat) (tl : List Nat) (h : n.Text = k :: tl) :
    ConcurrentNode.AddChild cs n = upsertChild k n cs := by
  unfold ConcurrentNode.AddChild
  rw [h]

theorem insertFind_split_full {T : Type} (v : T) (ch : Nat) (rem : List Nat) :
    ∀ (cs : List (Nat × ConcurrentNode T)) (c : ConcurrentNode T),
      lookupChild ch cs = some c →
      longestPrefixLen c.Text rem < c.Text.length →
      ¬ longestPrefixLen c.Text rem < rem.length →
      insertFind v ch rem cs =
        .didSplit
          (upsertChild ch
            (.mk (c.Text.drop (longestPrefixLen c.Text rem))
              c.Val c.End c.Deleted c.Children) cs)
          (.mk (c.Text.take (longestPrefixLen c.Text rem)) (some v) false false
            (ConcurrentNode.AddChild []
              (.mk (c.Text.drop (longestPrefixLen c.Text rem))
                c.Val c.End c.Deleted c.Children)))
          (.mk (c.Text.take (longestPrefixLen c.Text rem)) (some v) false false
            (ConcurrentNode.AddChild []
              (.mk (c.Text.drop (longestPrefixLen c.Text rem))
                c.Val c.End c.Deleted c.Children))) := by
  intro cs
  induction cs with
  | nil => intro c h; simp [lookupChild] at h
  | cons hd tl ih =>
      intro c hfind hsplit hfull
      obtain ⟨k, c'⟩ := hd
      by_cases hk : k = ch
      · simp only [lookupChild, hk, if_pos rfl] at hfind
        injection hfind with hfind'
        subst hfind'
        simp only [insertFind, hk, if_pos rfl, if_true, upsertChild]
        rw [if_pos hsplit, if_neg hfull]
      · simp only [lookupChild, hk, if_neg, ite_false] at hfind
        simp only [insertFind, upsertChild, hk, if_neg, ite_false]
        rw [ih c hfind hsplit hfull]

theorem Good_inv {T : Type} {t : List Nat} {v : Option T} {e : Bool}
    {cs : List (Nat × Node T)} (h : Good (Node.mk t v e cs)) :
    (∀ p ∈ cs, p.2.End = false → p.2.Children ≠ []) ∧ (∀ p ∈ cs, Good p.2) := by
  cases h with
  | mk _ _ _ _ h1 h2 => exact ⟨h1, h2⟩

theorem Good_nil_children {T : Type} (t : List Nat) (v : Option T) (e : Bool) :
    Good (Node.mk t v e []) :=
  Good.mk _ _ _ _ (fun p hp => absurd hp (List.not_mem_nil p))
    (fun p hp => absurd hp (List.not_mem_nil p))

theorem Good_irrel {T : Type} {t t' : List Nat} {v v' : Option T} {e e' : Bool}
    {cs : List (Nat × Node T)} (h : Good (Node.mk t v e cs)) :
    Good (Node.mk t' v' e' cs) := by
  obtain ⟨h1, h2⟩ := Good_inv h
  exact Good.mk _ _ _ _ h1 h2

theorem lookupChild_mem {A : Type} (k : Nat) :
    ∀ (l : List (Nat × A)) (c : A), lookupChild k l = some c → (k, c) ∈ l := by
  intro l
  induction l with
  | nil => intro c h; simp [lookupChild] at h
  | cons hd tl ih =>
      intro c h
      obtain ⟨k', c'⟩ := hd
      by_cases hk : k' = k
      · simp only [lookupChild, hk, if_pos rfl] at h
        injection h with h'
        subst h'
        subst hk
        exact List.mem_cons_self _ _
      · simp only [lookupChild, hk, if_neg, ite_false] at h
        exact List.mem_cons_of_mem _ (ih c h)

theorem Node_AddChild_ne_nil {T : Type} (cs : List (Nat × Node T)) (n : Node T) :
    Node.AddChild cs n ≠ [] := by
  unfold Node.AddChild
  rcases hnt : n.Text with _ | ⟨k0, tl0⟩ <;> exact upsertChild_ne_nil _ _ _

theorem mem_Node_AddChild {T : Type} (cs : List (Nat × Node T)) (n : Node T)
    (p : Nat × Node T) (hp : p ∈ Node.AddChild cs n) : p.2 = n ∨ p ∈ cs := by
  unfold Node.AddChild at hp
  rcases hnt : n.Text with _ | ⟨k0, tl0⟩
  · rw [hnt] at hp
    rcases mem_upsertChild 0 n cs p hp with h | h
    · exact Or.inl (by rw [h])
    · exact Or.inr h
  · rw [hnt] at hp
    rcases mem_upsertChild k0 n cs p hp with h | h
    · exact Or.inl (by rw [h])
    · exact Or.inr h

theorem seqInsert_good {T : Type} :
    ∀ (N : Nat) (n : Node T), sizeOf n ≤ N → ∀ (rem : List Nat) (v : T),
      Good n →
      Good (seqInsertLoop v n rem).1
      ∧ ((seqInsertLoop v n rem).1.End = false → n.End = false)
      ∧ ((seqInsertLoop v n rem).1.Children = [] → n.Children = []) := by
  intro N
  induction N with
  | zero =>
      intro n hn
      exact absurd hn (by have := seq_sizeOf_node_pos n; omega)
  | succ N ih =>
      intro n hn rem v hgood
      cases n with
      | mk t val e cs =>
        cases rem with
        | nil =>
            refine ⟨Good_irrel hgood, ?_, ?_⟩
            · intro h
              simp [seqInsertLoop, Node.End] at h
            · intro h
              simp only [seqInsertLoop, Node.Children] at h
              exact h
        | cons ch rest =>
            have hcs : ∀ pair ∈ cs, sizeOf pair.2 ≤ N := by
              intro pair hp
              have h1 := seq_sizeOf_mem_lt hp
              have h2 := seq_sizeOf_children_lt t val e cs
              omega
            obtain ⟨hg1, hg2⟩ := Good_inv hgood
            have hwalk :
                ∀ (l : List (Nat × Node T)),
                  (∀ pair ∈ l, sizeOf pair.2 ≤ N) →
                  (∀ pair ∈ l, (pair.2.End = false → pair.2.Children ≠ []) ∧ Good pair.2) →
                  (∀ l' ret, seqInsertFind v ch (ch :: rest) l = .descended l' ret →
                    l' ≠ [] ∧ ∀ pair ∈ l',
                      (pair.2.End = false → pair.2.Children ≠ []) ∧ Good pair.2)
                  ∧ (∀ l' common ret,
                      seqInsertFind v ch (ch :: rest) l = .didSplit l' common ret →
                      (∀ pair ∈ l',
                        (pair.2.End = false → pair.2.Children ≠ []) ∧ Good pair.2)
                      ∧ (common.End = false → common.Children ≠ []) ∧ Good common) := by
              intro l
              induction l with
              | nil =>
                  intro _ _
                  constructor
                  · intro l' ret h
                    simp [seqInsertFind] at h
                  · intro l' common ret h
                    simp [seqInsertFind] at h
              | cons hd tl ihl =>
                  intro hsz hgc
                  obtain ⟨k, c⟩ := hd
                  have hszc : sizeOf c ≤ N := hsz (k, c) (List.mem_cons_self _ _)
                  have hgcc := hgc (k, c) (List.mem_cons_self _ _)
                  have htl := ihl (fun pair hp => hsz pair (List.mem_cons_of_mem _ hp))
                    (fun pair hp => hgc pair (List.mem_cons_of_mem _ hp))
                  by_cases hk : k = ch
                  · by_cases hlt :
                        longestPrefixLen c.Text (ch :: rest) < c.Text.length
                    · constructor
                      · intro l' ret h
                        simp only [seqInsertFind, hk, if_pos rfl, if_true,
                          if_pos hlt] at h
                        cases h
                      · intro l' common ret h
                        simp only [seqInsertFind, hk, if_pos rfl, if_true,
                          if_pos hlt] at h
                        injection h with h1 h2 h3
                        subst h1
                        subst h2
                        refine ⟨?_, ?_, ?_⟩
                        · intro pair hp
                          rcases List.mem_cons.mp hp with h' | h'
                          · subst h'
                            refine ⟨fun hh => hgcc.1 hh, ?_⟩
                            cases c with
                            | mk ct cv ce ccs => exact Good_irrel hgcc.2
                          · exact hgc pair (List.mem_cons_of_mem _ h')
                        · intro _
                          exact Node_AddChild_ne_nil _ _
                        · refine Good.mk _ _ _ _ ?_ ?_
                          · intro pair hp
                            rcases mem_Node_AddChild _ _ _ hp with h' | h'
                            · rw [h']
                              intro hh
                              simp [NewNode, Node.End] at hh
                            · rcases mem_Node_AddChild _ _ _ h' with h'' | h''
                              · rw [h'']
                                intro hh
                                exact hgcc.1 hh
                              · exact absurd h'' (List.not_mem_nil _)
                          · intro pair hp
                            rcases mem_Node_AddChild _ _ _ hp with h' | h'
                            · rw [h']
                              exact Good_nil_children _ _ _
                            · rcases mem_Node_AddChild _ _ _ h' with h'' | h''
                              · rw [h'']
                                cases c with
                                | mk ct cv ce ccs => exact Good_irrel hgcc.2
                              · exact absurd h'' (List.not_mem_nil _)
                    · constructor
                      · intro l' ret h
                        simp only [seqInsertFind, hk, if_pos rfl, if_true,
                          if_neg hlt] at h
                        injection h with h1 h2
                        subst h1
                        obtain ⟨hG, hE, hC⟩ :=
                          ih c hszc ((ch :: rest).drop
                            (longestPrefixLen c.Text (ch :: rest))) v hgcc.2
                        refine ⟨by simp, ?_⟩
                        intro pair hp
                        rcases List.mem_cons.mp hp with h' | h'
                        · subst h'
                          refine ⟨?_, hG⟩
                          intro hh hnil
                          exact hgcc.1 (hE hh) (hC hnil)
                        · exact hgc pair (List.mem_cons_of_mem _ h')
                      · intro l' common ret h
                        simp only [seqInsertFind, hk, if_pos rfl, if_true,
                          if_neg hlt] at h
                        cases h
                  · rcases hrec : seqInsertFind v ch (ch :: rest) tl with
                      _ | ⟨tl', ret'⟩ | ⟨tl', common', ret'⟩
                    · constructor
                      · intro l' ret h
                        simp only [seqInsertFind, hk, if_neg, ite_false] at h
                        rw [hrec] at h
                        cases h
                      · intro l' common ret h
                        simp only [seqInsertFind, hk, if_neg, ite_false] at h
                        rw [hrec] at h
                        cases h
                    · constructor
                      · intro l' ret h
                        simp only [seqInsertFind, hk, if_neg, ite_false] at h
                        rw [hrec] at h
                        injection h with h1 h2
                        subst h1
                        obtain ⟨_, htl'⟩ := htl.1 tl' ret' hrec
                        refine ⟨by simp, ?_⟩
                        intro pair hp
                        rcases List.mem_cons.mp hp with h' | h'
                        · subst h'
                          exact hgcc
                        · exact htl' pair h'
                      · intro l' common ret h
                        simp only [seqInsertFind, hk, if_neg, ite_false] at h
                        rw [hrec] at h
                        cases h
                    · constructor
                      · intro l' ret h
                        simp only [seqInsertFind, hk, if_neg, ite_false] at h
                        rw [hrec] at h
                        cases h
                      · intro l' common ret h
                        simp only [seqInsertFind, hk, if_neg, ite_false] at h
                        rw [hrec] at h
                        injection h with h1 h2 h3
                        subst h1
                        subst h2
                        obtain ⟨htl', hcom1, hcom2⟩ := htl.2 tl' common' ret' hrec
                        refine ⟨?_, hcom1, hcom2⟩
                        intro pair hp
                        rcases List.mem_cons.mp hp with h' | h'
                        · subst h'
                          exact hgcc
                        · exact htl' pair h'
            obtain ⟨hwD, hwS⟩ := hwalk cs hcs (fun pair hp => ⟨hg1 pair hp, hg2 pair hp⟩)
            rcases hf : seqInsertFind v ch (ch :: rest) cs with
              _ | ⟨cs', ret⟩ | ⟨cs', common, ret⟩
            · simp only [seqInsertLoop, hf]
              refine ⟨?_, ?_, ?_⟩
              · refine Good.mk _ _ _ _ ?_ ?_
                · intro pair hp
                  rcases mem_Node_AddChild _ _ _ hp with h' | h'
                  · rw [h']
                    intro hh
                    simp [NewNode, Node.End] at hh
                  · exact hg1 pair h'
                · intro pair hp
                  rcases mem_Node_AddChild _ _ _ hp with h' | h'
                  · rw [h']
                    exact Good_nil_children _ _ _
                  · exact hg2 pair h'
              · intro h
                exact h
              · intro h
                exact (Node_AddChild_ne_nil cs (NewNode (ch :: rest) (some v)) h).elim
            · obtain ⟨hne, hmem⟩ := hwD cs' ret hf
              simp only [seqInsertLoop, hf]
              refine ⟨?_, fun h => h, fun h => absurd h hne⟩
              exact Good.mk _ _ _ _ (fun pair hp => (hmem pair hp).1)
                (fun pair hp => (hmem pair hp).2)
            · obtain ⟨hmem, hcom1, hcom2⟩ := hwS cs' common ret hf
              simp only [seqInsertLoop, hf]
              refine ⟨?_, fun h => h, fun h => (Node_AddChild_ne_nil cs' common h).elim⟩
              refine Good.mk _ _ _ _ ?_ ?_
              · intro pair hp
                rcases mem_Node_AddChild _ _ _ hp with h' | h'
                · rw [h']
                  exact hcom1
                · exact (hmem pair h').1
              · intro pair hp
                rcases mem_Node_AddChild _ _ _ hp with h' | h'
                · rw [h']
                  exact hcom2
                · exact (hmem pair h').2


theorem seqRemoveAt_good {T : Type} :
    ∀ (p : List Nat) (isRoot : Bool) (n : Node T),
      Good n → (isRoot = false → n.End = false → n.Children ≠ []) →
      ∀ (n' : Node T) (del : Bool), seqRemoveAt isRoot n p = some (n', del) →
        Good n' ∧ (del = false → isRoot = false → n'.End = false → n'.Children ≠ []) := by
  intro p
  induction p with
  | nil =>
      intro isRoot n hgood hp n' del heq
      cases n with
      | mk t v e cs =>
        simp only [seqRemoveAt] at heq
        split at heq
        next hd tlc hcs =>
          injection heq with h1
          injection h1 with h1a h1b
          subst h1a
          subst h1b
          refine ⟨hgood, fun _ _ _ => ?_⟩
          rw [hcs]
          simp
        next hcs =>
          split at heq
          next hroot =>
            subst hroot
            injection heq with h1
            injection h1 with h1a h1b
            subst h1a
            subst h1b
            exact ⟨hgood, fun _ hr => absurd hr (by simp)⟩
          next hroot =>
            injection heq with h1
            injection h1 with h1a h1b
            subst h1a
            subst h1b
            exact ⟨hgood, fun hdel => absurd hdel (by simp)⟩
  | cons k rest ihp =>
      intro isRoot n hgood hp n' del heq
      cases n with
      | mk t v e cs =>
        obtain ⟨hg1, hg2⟩ := Good_inv hgood
        simp only [seqRemoveAt] at heq
        split at heq
        next hlk =>
          injection heq with h1
          injection h1 with h1a h1b
          subst h1a
          subst h1b
          exact ⟨hgood, fun _ hr he => hp hr he⟩
        next c hlk =>
          have hmem := lookupChild_mem k cs c hlk
          have hc1 := hg1 (k, c) hmem
          have hcGood := hg2 (k, c) hmem
          split at heq
          next hrec => cases heq
          next c' hrec =>
            obtain ⟨hGc', hPc'⟩ := ihp false c hcGood (fun _ => hc1) c' false hrec
            injection heq with h1
            injection h1 with h1a h1b
            subst h1a
            subst h1b
            refine ⟨?_, fun _ _ _ => upsertChild_ne_nil k c' cs⟩
            refine Good.mk _ _ _ _ ?_ ?_
            · intro pair hp'
              rcases mem_upsertChild k c' cs pair hp' with h' | h'
              · subst h'
                exact hPc' rfl rfl
              · exact hg1 pair h'
            · intro pair hp'
              rcases mem_upsertChild k c' cs pair hp' with h' | h'
              · subst h'
                exact hGc'
              · exact hg2 pair h'
          next c' hrec =>
            split at heq
            next hct => cases heq
            next t0 ttl hct =>
              split at heq
              next csx ex he =>
                split at heq
                next hroot =>
                  subst hroot
                  injection heq with h1
                  injection h1 with h1a h1b
                  subst h1a
                  subst h1b
                  exact ⟨Good_nil_children _ _ _, fun _ hr => absurd hr (by simp)⟩
                next hroot =>
                  injection heq with h1
                  injection h1 with h1a h1b
                  subst h1a
                  subst h1b
                  exact ⟨Good_nil_children _ _ _, fun hdel => absurd hdel (by simp)⟩
              next e1 csx e2 hnot =>
                split at heq
                next hroot =>
                  subst hroot
                  injection heq with h1
                  injection h1 with h1a h1b
                  subst h1a
                  subst h1b
                  refine ⟨?_, fun _ hr => absurd hr (by simp)⟩
                  refine Good.mk _ _ _ _ ?_ ?_
                  · intro pair hp'
                    exact hg1 pair (mem_eraseChild t0 cs pair hp')
                  · intro pair hp'
                    exact hg2 pair (mem_eraseChild t0 cs pair hp')
                next hroot =>
                  injection heq with h1
                  injection h1 with h1a h1b
                  subst h1a
                  subst h1b
                  refine ⟨?_, ?_⟩
                  · refine Good.mk _ _ _ _ ?_ ?_
                    · intro pair hp'
                      exact hg1 pair (mem_eraseChild t0 cs pair hp')
                    · intro pair hp'
                      exact hg2 pair (mem_eraseChild t0 cs pair hp')
                  · intro _ _ hEnd hnil
                    exact hnot hnil hEnd

theorem Tree_ops_good {T : Type} :
    ∀ (ops : List (TreeOp T)) (t t' : Tree T),
      Good t.Root → applyOps t ops = some t' → Good t'.Root := by
  intro ops
  induction ops with
  | nil =>
      intro t t' hg h
      simp only [applyOps, Option.some.injEq] at h
      rw [← h]
      exact hg
  | cons op tl ih =>
      intro t t' hg h
      simp only [applyOps] at h
      split at h
      next hop => cases h
      next t1 hop =>
        refine ih t1 t' ?_ h
        cases op with
        | ins key v =>
            simp only [applyOp, Option.some.injEq] at hop
            subst hop
            cases key with
            | nil => exact hg
            | cons ch rest =>
                exact (seqInsert_good (sizeOf t.Root) t.Root le_rfl (ch :: rest) v hg).1
        | rem p =>
            simp only [applyOp, Tree.RemoveNode] at hop
            split at hop
            next hra => cases hop
            next r del hra =>
                injection hop with hop'
                subst hop'
                exact (seqRemoveAt_good p true t.Root hg
                  (fun habs => absurd habs (by simp)) r del hra).1

/-!
Claim theorems.
-/

/-- C1: the claim states that after inserting distinct non-empty keys with
values v_i in any order, `LongestCommonPrefixMatch(key_i)` returns
`(key_i, v_i, true)` for every i.  The code violates this: inserting the keys
`[0]`, `[0,1,2]`, `[0,1]` (mirroring the keys "a", "abc", "ab" of
TestNestedPrefixSplitting) with values 1, 3, 2 makes the lookup of `[0]`
return value 2, because the split performed while inserting `[0,1]` executes
`cur.Val = &val` on the already-terminal node for `[0]`.  This theorem
evaluates the embedded code at that failing input. -/
theorem C1_eval :
    ConcurrentTree.LongestCommonPrefixMatch
      ((ConcurrentTree.Insert ((ConcurrentTree.Insert ((ConcurrentTree.Insert
        (NewConcurrentTree Nat) [0] 1).1) [0, 1, 2] 3).1) [0, 1] 2).1) [0]
      = ([0], some 2, true) := by
  rfl

/-- C2: the claim states that removing a childless node with a non-null
parent unlinks it from its parent's children map, leaving no tombstone.  The
concurrent `RemoveNode` instead only clears the value and end flag and sets
the `Deleted` flag, leaving the node linked.  With the keys `[0,1,2,3,4]`
("world" → 2) and `[0,1,1,1]` ("wooo" → 6) of TestConcurrentTreeRemoveNode,
after removing the leaf for `[0,1,1,1]` the node is still reachable at its
old path, marked deleted, and the lookup of `[0,1,1,1]` now returns a nil
value (the test expects value 2 from the sibling after a structural
unlink). -/
theorem C2_eval :
    nodeAtPath (ConcurrentTree.RemoveNode
        ((ConcurrentTree.Insert ((ConcurrentTree.Insert
          (NewConcurrentTree Nat) [0, 1, 2, 3, 4] 2).1) [0, 1, 1, 1] 6).1)
        [0, 1]).Root [0, 1]
      = some (.mk [1, 1] none false true [])
    ∧ ConcurrentTree.LongestCommonPrefixMatch (ConcurrentTree.RemoveNode
        ((ConcurrentTree.Insert ((ConcurrentTree.Insert
          (NewConcurrentTree Nat) [0, 1, 2, 3, 4] 2).1) [0, 1, 1, 1] 6).1)
        [0, 1]) [0, 1, 1, 1]
      = ([0, 1, 1, 1], none, false) := by
  exact ⟨rfl, rfl⟩

/-- C5: the claim states that `RemoveNode` on a node with children clears its
value and end flag and re-seeds its value from a child.  In the sequential
tree (the input of TestRemoveIntermidiateNodeCleanup: keys `[0]`, `[0,1]`,
`[0,1,2]` with values 1, 2, 3), removing the node for `[0,1]` is a complete
no-op: the tree is unchanged and the node keeps value 2 and its end flag, so
the test's expected re-seeded value 3 is not produced.  In the concurrent
tree (keys `[0]` → 1 and `[0,1]` → 2), removing the node for `[0]` clears its
value to nil without re-seeding it from its child. -/
theorem C5_eval :
    Tree.RemoveNode
        ((Tree.Insert ((Tree.Insert ((Tree.Insert
          (NewTree Nat) [0] 1).1) [0, 1] 2).1) [0, 1, 2] 3).1) [0, 1]
      = some ((Tree.Insert ((Tree.Insert ((Tree.Insert
          (NewTree Nat) [0] 1).1) [0, 1] 2).1) [0, 1, 2] 3).1)
    ∧ (seqNodeAtPath ((Tree.Insert ((Tree.Insert ((Tree.Insert
          (NewTree Nat) [0] 1).1) [0, 1] 2).1) [0, 1, 2] 3).1).Root [0, 1]).map Node.Val
      = some (some 2)
    ∧ (seqNodeAtPath ((Tree.Insert ((Tree.Insert ((Tree.Insert
          (NewTree Nat) [0] 1).1) [0, 1] 2).1) [0, 1, 2] 3).1).Root [0, 1]).map Node.End
      = some true
    ∧ (nodeAtPath (ConcurrentTree.RemoveNode
          ((ConcurrentTree.Insert ((ConcurrentTree.Insert
            (NewConcurrentTree Nat) [0] 1).1) [0, 1] 2).1) [0]).Root [0]).map
        ConcurrentNode.Val
      = some none := by
  exact ⟨rfl, rfl, rfl, rfl⟩

/-- C3 counterexample: the claim states that when the query is exhausted
exactly on a node, `exact` equals that node's end flag.  After inserting the
single key `[0,1]` into the concurrent tree, the node created for it has
`End = false` (the no-child branch of Insert creates nodes with end flag
false), yet the lookup of `[0,1]` returns `exact = true`: exactness is
computed from the non-nil value, not from the end flag. -/
theorem C3_counterexample :
    ConcurrentTree.LongestCommonPrefixMatch
        ((ConcurrentTree.Insert (NewConcurrentTree Nat) [0, 1] 1).1) [0, 1]
      = ([0, 1], some 1, true)
    ∧ (nodeAtPath ((ConcurrentTree.Insert (NewConcurrentTree Nat) [0, 1] 1).1).Root
        [0]).map ConcurrentNode.End
      = some false := by
  exact ⟨rfl, rfl⟩

/-- C4 counterexample: the claim states that when a split consumes the whole
inserted key, the new intermediate node gets its value AND end flag set and
is the returned handle.  Inserting `[0,1]` → 1 and then `[0]` → 2, the handle
returned for `[0]` is the intermediate node with value 2 but its end flag is
left false (the full-consumption split branch of concurrent_tree.go never
sets `End`). -/
theorem C4_counterexample :
    (ConcurrentTree.Insert ((ConcurrentTree.Insert
        (NewConcurrentTree Nat) [0, 1] 1).1) [0] 2).2
      = some (.mk [0] (some 2) false false [(1, .mk [1] (some 1) false false [])]) := by
  rfl

/-- C6 counterexample: the claim states that after any sequence of Insert and
RemoveNode operations no reachable node has `end = false` and no children.
A single concurrent `Insert` of the key `[0]` already creates such a node
reachable from the root: the no-child branch of the concurrent Insert creates
leaves with end flag false. -/
theorem C6_counterexample :
    nodeAtPath ((ConcurrentTree.Insert (NewConcurrentTree Nat) [0] 1).1).Root [0]
      = some (.mk [0] (some 1) false false []) := by
  rfl

/-- C8 counterexample: the claim states that the terminal record of
`MultiLongestCommonPrefixMatch` carries `exact = true` exactly when the
descent stopped with the query exhausted on a terminal node.  Insert `[0,1]`
twice (second insert marks the node terminal), then query `[0]`: the descent
stops on a partial edge match — the query is not exhausted on any node
(`finalNode` is `none`) — yet the terminal record carries `exact = true`,
because the code tags it with the stop node's end flag regardless of how the
descent stopped. -/
theorem C8_counterexample :
    ConcurrentTree.MultiLongestCommonPrefixMatch
        ((ConcurrentTree.Insert ((ConcurrentTree.Insert
          (NewConcurrentTree Nat) [0, 1] 1).1) [0, 1] 1).1) [0]
      = [NewMatch 0 (some 1) false, NewMatch 0 (some 1) true]
    ∧ finalNode ((ConcurrentTree.Insert ((ConcurrentTree.Insert
          (NewConcurrentTree Nat) [0, 1] 1).1) [0, 1] 1).1).Root [0]
      = none := by
  exact ⟨rfl, rfl⟩

/-- C9: for every tree state and every value, inserting an empty key returns
an absent handle and leaves the tree completely unchanged, in both the
sequential and the concurrent tree.  This is the first guard of both Insert
implementations. -/
theorem C9_empty_key_noop {T : Type} :
    (∀ (t : ConcurrentTree T) (v : T), ConcurrentTree.Insert t [] v = (t, none))
    ∧ (∀ (t : Tree T) (v : T), Tree.Insert t [] v = (t, none)) :=
  ⟨fun _ _ => rfl, fun _ _ => rfl⟩

/-- C10: for every tree and every query, the matched prefix returned by
`LongestCommonPrefixMatch` is a prefix of the query (hence its length never
exceeds the query's length and it consists of the first units of the query
consumed by the descent), in both the concurrent and the sequential tree. -/
theorem C10_matched_is_prefix {T : Type} :
    (∀ (t : ConcurrentTree T) (str : List Nat),
      (ConcurrentTree.LongestCommonPrefixMatch t str).1 <+: str)
    ∧ (∀ (t : Tree T) (str : List Nat),
      (Tree.LongestCommonPrefixMatch t str).1 <+: str) := by
  constructor
  · intro t str
    obtain ⟨p, hp1, hp2⟩ :=
      lcpmLoop_prefix (sizeOf t.Root) t.Root le_rfl str [] none false
    unfold ConcurrentTree.LongestCommonPrefixMatch
    rw [hp1]
    simpa using hp2
  · intro t str
    obtain ⟨p, hp1, hp2⟩ :=
      seqLcpmLoop_prefix (sizeOf t.Root) t.Root le_rfl str []
    unfold Tree.LongestCommonPrefixMatch
    rw [hp1]
    simpa using hp2

/-- C3 (amended): for every concurrent tree and every query, the `exact` flag
returned by `LongestCommonPrefixMatch` is true precisely when the descent
exhausts the query by full edge matches on a node carrying a non-nil value
(or the query is empty) — the end flag of the node plays no role; when the
descent exhausts the query on a node whose value is nil and a depth-first
search into that node's subtree finds a value, that value is returned (with
`exact = false` by the first part); and when a child lookup fails or an edge
matches only partially (`finalNode` is `none`), `exact` is false and the
value returned is the last non-nil value seen along the matched path
(`pathVal`). -/
theorem C3_amended {T : Type} (t : ConcurrentTree T) (str : List Nat) :
    ((ConcurrentTree.LongestCommonPrefixMatch t str).2.2 = true ↔
      ∃ m, finalNode t.Root str = some m ∧ (str = [] ∨ m.Val.isSome = true))
    ∧ (∀ (m : ConcurrentNode T) (w : T),
        finalNode t.Root str = some m → m.Val = none → str ≠ [] →
        dfsNodeForValue m = some w →
        (ConcurrentTree.LongestCommonPrefixMatch t str).2.1 = some w)
    ∧ (finalNode t.Root str = none →
        (ConcurrentTree.LongestCommonPrefixMatch t str).2.2 = false
        ∧ (ConcurrentTree.LongestCommonPrefixMatch t str).2.1
            = pathVal t.Root str none) := by
  have hexact :=
    lcpmLoop_exact (sizeOf t.Root) t.Root le_rfl str [] none false
  refine ⟨?_, ?_, ?_⟩
  · unfold ConcurrentTree.LongestCommonPrefixMatch
    rw [hexact]
    constructor
    · rintro ⟨m, hm, h2, h3⟩
      cases str with
      | nil => exact ⟨m, hm, Or.inl rfl⟩
      | cons a b => exact ⟨m, hm, Or.inr (h3 (by simp))⟩
    · rintro ⟨m, hm, h3⟩
      cases str with
      | nil => exact ⟨m, hm, fun _ => rfl, fun h => absurd rfl h⟩
      | cons a b =>
          refine ⟨m, hm, ?_, ?_⟩
          · intro h
            cases h
          · intro _
            rcases h3 with h | h
            · cases h
            · exact h
  · intro m w hfin hval hne hdfs
    unfold ConcurrentTree.LongestCommonPrefixMatch
    exact lcpmLoop_dfs (sizeOf t.Root) t.Root le_rfl str [] none false m w hfin hval
      (fun h => absurd h hne) hdfs
  · intro hfin
    refine ⟨?_, ?_⟩
    · unfold ConcurrentTree.LongestCommonPrefixMatch
      cases hb : (lcpmLoop t.Root str [] none false).2.2 with
      | false => rfl
      | true =>
          obtain ⟨m, hm, _⟩ := hexact.mp hb
          rw [hm] at hfin
          cases hfin
    · exact lcpmLoop_failVal (sizeOf t.Root) t.Root le_rfl str [] none false hfin

/-- C8 (amended): for every tree and query, the record list returned by
`MultiLongestCommonPrefixMatch` is EXACTLY `multiSpec`, the explicit
concatenation, in root-to-leaf path order over the nodes visited by the
descent, of each visited node's own-value record at the depth reached so far
(`Exact = false`), followed — once the next child is found at that node — by
the values of that node's direct children at the same depth
(`Exact = false`), and terminated by the stop node's block: its own value
tagged with the final depth and with `Exact` equal to that node's END FLAG —
regardless of whether the query was exhausted there — followed by its
children's values at the final depth with `Exact = false`.  (When the
descent stops because a child is missing, the stop node's own value is thus
recorded twice: once in its visited-node record and once in its terminal
block.)  The second conjunct identifies the terminal block with the stop
node computed by `stopNode`. -/
theorem C8_amended {T : Type} (t : ConcurrentTree T) (str : List Nat) :
    ConcurrentTree.MultiLongestCommonPrefixMatch t str = multiSpec t.Root str 0
    ∧ ∃ pre, multiSpec t.Root str 0 =
        pre ++ (ownEndRec (stopNode t.Root str 0).1.Val (stopNode t.Root str 0).1.End
            (stopNode t.Root str 0).2
          ++ childRecs (stopNode t.Root str 0).1.Children (stopNode t.Root str 0).2) := by
  have hA := multiLoop_spec (sizeOf t.Root) t.Root le_rfl str 0 []
  have hA' : ConcurrentTree.MultiLongestCommonPrefixMatch t str = multiSpec t.Root str 0 := by
    unfold ConcurrentTree.MultiLongestCommonPrefixMatch
    rw [hA]
    simp
  refine ⟨hA', ?_⟩
  obtain ⟨pre, hp⟩ := multiLoop_stop (sizeOf t.Root) t.Root le_rfl str 0 []
  refine ⟨pre, ?_⟩
  rw [← hA']
  exact hp

/-- C4 (amended): during a concurrent Insert at a non-root node, when the
matched child's edge only partially matches (a split occurs) and the
remaining key is fully consumed by the shared prefix, the newly created
intermediate node carries the shared prefix as its text, gets the inserted
value as its value, and is itself the handle returned by Insert, reachable in
the updated tree under the next unit — but its END FLAG REMAINS FALSE (the
claim's assertion that the end flag is set does not hold; exactness of later
lookups is carried by the non-nil value instead).  The hypotheses state that
the child bound to the next unit `ch` exists, is keyed consistently with its
text, and satisfies the two split conditions of the code. -/
theorem C4_amended {T : Type} (t0 : List Nat) (v0 : Option T) (e0 d0 : Bool)
    (cs : List (Nat × ConcurrentNode T)) (ch : Nat) (rest : List Nat)
    (c : ConcurrentNode T) (v : T)
    (hfind : lookupChild ch cs = some c)
    (hhead : c.Text.head? = some ch)
    (hsplit : longestPrefixLen c.Text (ch :: rest) < c.Text.length)
    (hfull : ¬ longestPrefixLen c.Text (ch :: rest) < (ch :: rest).length) :
    ∃ common : ConcurrentNode T,
      insertLoop v false (.mk t0 v0 e0 d0 cs) (ch :: rest) =
        (.mk t0 (some v) e0 d0
          (ConcurrentNode.AddChild
            (upsertChild ch (.mk (c.Text.drop (longestPrefixLen c.Text (ch :: rest)))
                c.Val c.End c.Deleted c.Children) cs) common), some common)
      ∧ common.Text = c.Text.take (longestPrefixLen c.Text (ch :: rest))
      ∧ common.Val = some v
      ∧ common.End = false
      ∧ lookupChild ch
          (insertLoop v false (.mk t0 v0 e0 d0 cs) (ch :: rest)).1.Children
          = some common := by
  obtain ⟨tt, htt⟩ : ∃ tt, c.Text = ch :: tt := by
    cases h : c.Text with
    | nil => rw [h] at hhead; simp at hhead
    | cons a tt =>
        rw [h] at hhead
        simp only [List.head?, Option.some.injEq] at hhead
        exact ⟨tt, by rw [hhead]⟩
  obtain ⟨m, hm⟩ : ∃ m, longestPrefixLen c.Text (ch :: rest) = m + 1 := by
    rw [htt]
    simp [longestPrefixLen]
  have hmain :
      insertLoop v false (.mk t0 v0 e0 d0 cs) (ch :: rest) =
        (.mk t0 (some v) e0 d0
          (ConcurrentNode.AddChild
            (upsertChild ch (.mk (c.Text.drop (longestPrefixLen c.Text (ch :: rest)))
                c.Val c.End c.Deleted c.Children) cs)
            (.mk (c.Text.take (longestPrefixLen c.Text (ch :: rest))) (some v) false false
              (ConcurrentNode.AddChild []
                (.mk (c.Text.drop (longestPrefixLen c.Text (ch :: rest)))
                  c.Val c.End c.Deleted c.Children)))),
          some (.mk (c.Text.take (longestPrefixLen c.Text (ch :: rest))) (some v) false false
            (ConcurrentNode.AddChild []
              (.mk (c.Text.drop (longestPrefixLen c.Text (ch :: rest)))
                c.Val c.End c.Deleted c.Children)))) := by
    simp only [insertLoop]
    rw [insertFind_split_full v ch (ch :: rest) cs c hfind hsplit hfull]
    rfl
  have hcom :
      (ConcurrentNode.mk (c.Text.take (longestPrefixLen c.Text (ch :: rest)))
        (some v) false false
        (ConcurrentNode.AddChild []
          (.mk (c.Text.drop (longestPrefixLen c.Text (ch :: rest)))
            c.Val c.End c.Deleted c.Children)) : ConcurrentNode T).Text
      = ch :: tt.take m := by
    show c.Text.take (longestPrefixLen c.Text (ch :: rest)) = ch :: tt.take m
    rw [hm, htt]
    rfl
  have hkey := AddChild_cons_text
    (upsertChild ch (.mk (c.Text.drop (longestPrefixLen c.Text (ch :: rest)))
        c.Val c.End c.Deleted c.Children) cs)
    (.mk (c.Text.take (longestPrefixLen c.Text (ch :: rest))) (some v) false false
      (ConcurrentNode.AddChild []
        (.mk (c.Text.drop (longestPrefixLen c.Text (ch :: rest)))
          c.Val c.End c.Deleted c.Children)))
    ch (tt.take m) hcom
  refine ⟨.mk (c.Text.take (longestPrefixLen c.Text (ch :: rest))) (some v) false false
      (ConcurrentNode.AddChild []
        (.mk (c.Text.drop (longestPrefixLen c.Text (ch :: rest)))
          c.Val c.End c.Deleted c.Children)), hmain, rfl, rfl, rfl, ?_⟩
  rw [hmain]
  show lookupChild ch
      (ConcurrentNode.AddChild
        (upsertChild ch (.mk (c.Text.drop (longestPrefixLen c.Text (ch :: rest)))
            c.Val c.End c.Deleted c.Children) cs)
        (.mk (c.Text.take (longestPrefixLen c.Text (ch :: rest))) (some v) false false
          (ConcurrentNode.AddChild []
            (.mk (c.Text.drop (longestPrefixLen c.Text (ch :: rest)))
              c.Val c.End c.Deleted c.Children))))
      = some (.mk (c.Text.take (longestPrefixLen c.Text (ch :: rest))) (some v) false false
          (ConcurrentNode.AddChild []
            (.mk (c.Text.drop (longestPrefixLen c.Text (ch :: rest)))
              c.Val c.End c.Deleted c.Children)))
  rw [hkey]
  exact lookupChild_upsertChild_self _ _ _

/-- C6 (amended): in the SEQUENTIAL tree, after any completed sequence of
Insert and RemoveNode operations starting from the empty tree, no non-root
node with `End = false` and no children is reachable from the root (`Good`
states this invariant for every descendant of the root).  The concurrent
variant does not maintain this invariant: its Insert creates leaves with end
flag false and its RemoveNode tombstones nodes in place (see the
counterexample). -/
theorem C6_amended {T : Type} (ops : List (TreeOp T)) (t : Tree T)
    (h : applyOps (NewTree T) ops = some t) : Good t.Root :=
  Tree_ops_good ops (NewTree T) t (Good_nil_children [] none false) h

/-- Witness for C6 (amended), applying the theorem at a concrete operation
sequence: insert the key `[0,1]` with value 1, then remove the node for it
(the handle is the path `[0]`); the sequence completes and the invariant
holds for the resulting tree. -/
theorem C6_witness :
    applyOps (NewTree Nat) [TreeOp.ins [0, 1] 1, TreeOp.rem [0]] = some (NewTree Nat)
    ∧ Good (NewTree Nat).Root :=
  ⟨rfl, C6_amended [TreeOp.ins [0, 1] 1, TreeOp.rem [0]] (NewTree Nat) rfl⟩

/-- Witness for C4 (amended), applying the theorem at a concrete input:
inserting the value 2 under the key `[0]` below a node whose only child holds
`[0,1]` → 1 triggers the full-consumption split; the returned intermediate
node has value 2 and end flag false. -/
theorem C4_witness :
    ((insertLoop 2 false
        (.mk [] none false false [(0, .mk [0, 1] (some 1) false false [])])
        [0]).2.map ConcurrentNode.Val) = some (some 2)
    ∧ ((insertLoop 2 false
        (.mk [] none false false [(0, .mk [0, 1] (some 1) false false [])])
        [0]).2.map ConcurrentNode.End) = some false := by
  obtain ⟨common, heq, _, hval, hend, _⟩ :=
    C4_amended (T := Nat) [] none false false
      [(0, .mk [0, 1] (some 1) false false [])] 0 []
      (.mk [0, 1] (some 1) false false []) 2 rfl rfl (by decide) (by decide)
  rw [heq]
  simp [hval, hend]

/-- Witness for C3 (amended), applying the theorem at a concrete input: the
concurrent tree holding `[0,1,2]` → 1 and `[0,1,3]` → 2, queried with
`[0,1]`.  The query exhausts on the intermediate split node, whose value is
nil; the depth-first search finds the value 1, which the lookup returns. -/
theorem C3_witness :
    (ConcurrentTree.LongestCommonPrefixMatch
      ((ConcurrentTree.Insert ((ConcurrentTree.Insert
        (NewConcurrentTree Nat) [0, 1, 2] 1).1) [0, 1, 3] 2).1) [0, 1]).2.1
      = some 1 :=
  (C3_amended ((ConcurrentTree.Insert ((ConcurrentTree.Insert
      (NewConcurrentTree Nat) [0, 1, 2] 1).1) [0, 1, 3] 2).1) [0, 1]).2.1
    (.mk [0, 1] none false false
      [(2, .mk [2] (some 1) false false []), (3, .mk [3] (some 2) true false [])])
    1 rfl rfl (by simp) rfl

end LRadix
